import Mathlib

/-!
Shallow embedding of `src/node/src/protocol/triple.rs` (`TripleManager`) and
proofs of the specification claims about it.

Modelling choices:
* `HashMap<TripleId, _>` is modelled as an association list with unique keys
  (uniqueness is established where needed); `insert` replaces in place,
  `remove` deletes the first matching entry, mirroring the unique-key map.
* `VecDeque<TripleId>` is a `List TripleId` (`push_back` appends,
  `pop_front` takes the head).
* The opaque cait-sith protocol object (`TripleProtocol`) is modelled as a
  script: the list of results its successive `poke()` calls return.  An
  exhausted script behaves like `Wait`.  `rand::random()` and
  `cait_sith::triples::generate_triple(...)` are external effects, so the
  sampled id and the freshly constructed protocol (or its
  `InitializationError`) are explicit arguments of `generate` /
  `get_or_generate`.
* Opaque cryptographic payloads (`TripleShare`, `TriplePub`, message bytes)
  are modelled as `Nat`.
* `Option::unwrap` on `None` aborts the process in Rust; `take_mine_twice`
  therefore returns a dedicated `crashed` outcome for that branch.
-/

namespace MPC

abbrev TripleId := Nat
abbrev Participant := Nat
abbrev Bytes := Nat
abbrev ProtocolError := Nat
abbrev InitializationError := Nat

/-- A completed triple (`struct Triple`): `share`/`public` are opaque. -/
structure Triple where
  id : TripleId
  share : Nat
  public : Nat
deriving DecidableEq, Repr

/-- One result of a cait-sith `Protocol::poke()` call
(`Ok(Action)` or `Err(ProtocolError)`), with `Action` inlined. -/
inductive PokeResult where
  | wait : PokeResult
  | sendMany (data : Bytes) : PokeResult
  | sendPrivate (peer : Participant) (data : Bytes) : PokeResult
  | ret (share : Nat) (public : Nat) : PokeResult
  | err (e : ProtocolError) : PokeResult
deriving DecidableEq, Repr

/-- The opaque protocol object, as the script of its future poke results. -/
abbrev TripleProtocol := List PokeResult

/-- `struct TripleGenerator`. -/
structure TripleGenerator where
  protocol : TripleProtocol
  mine : Bool
deriving DecidableEq, Repr

/-- `TripleMessage` (field `from` of the Rust struct is `from_` here). -/
structure TripleMessage where
  id : TripleId
  epoch : Nat
  from_ : Participant
  data : Bytes
deriving DecidableEq, Repr

/-! ### Association-list maps (model of `HashMap<TripleId, α>`) -/

def mapLookup {α : Type} : List (TripleId × α) → TripleId → Option α
  | [], _ => none
  | (k, v) :: t, id => if k = id then some v else mapLookup t id

def mapContains {α : Type} (m : List (TripleId × α)) (id : TripleId) : Bool :=
  (mapLookup m id).isSome

/-- `HashMap::insert`: replaces the entry in place if the key is present,
otherwise appends. -/
def mapInsert {α : Type} : List (TripleId × α) → TripleId → α → List (TripleId × α)
  | [], id, v => [(id, v)]
  | (k, w) :: t, id, v =>
    if k = id then (id, v) :: t else (k, w) :: mapInsert t id v

/-- `HashMap::remove`: returns the removed value (if any) and the rest. -/
def mapRemove {α : Type} : List (TripleId × α) → TripleId → Option α × List (TripleId × α)
  | [], _ => (none, [])
  | (k, w) :: t, id =>
    if k = id then (some w, t)
    else
      let r := mapRemove t id
      (r.1, (k, w) :: r.2)

def mapKeys {α : Type} (m : List (TripleId × α)) : List TripleId := m.map Prod.fst

/-! ### The manager -/

/-- `struct TripleManager`. -/
structure TripleManager where
  triples : List (TripleId × Triple)
  generators : List (TripleId × TripleGenerator)
  mine : List TripleId
  participants : List Participant
  me : Participant
  threshold : Nat
  epoch : Nat
deriving DecidableEq, Repr

namespace TripleManager

/-- `TripleManager::new`. -/
def new (participants : List Participant) (me : Participant)
    (threshold : Nat) (epoch : Nat) : TripleManager :=
  { triples := [], generators := [], mine := [],
    participants := participants, me := me, threshold := threshold, epoch := epoch }

/-- `TripleManager::len`. -/
def len (s : TripleManager) : Nat := s.triples.length

/-- `TripleManager::my_len`. -/
def my_len (s : TripleManager) : Nat := s.mine.length

/-- `TripleManager::potential_len`. -/
def potential_len (s : TripleManager) : Nat :=
  s.triples.length + s.generators.length

/-- `TripleManager::generate`.  `id` is the value `rand::random()` returned,
`newProtocol` the result of `cait_sith::triples::generate_triple(...)`. -/
def generate (s : TripleManager) (id : TripleId)
    (newProtocol : Except InitializationError TripleProtocol) :
    Except InitializationError TripleManager :=
  match newProtocol with
  | .error e => .error e
  | .ok protocol =>
    .ok { s with generators := mapInsert s.generators id ⟨protocol, true⟩ }

/-- `TripleManager::take`. -/
def take (s : TripleManager) (id : TripleId) : Option Triple × TripleManager :=
  let r := mapRemove s.triples id
  (r.1, { s with triples := r.2 })

/-- Result of `take_mine_twice`: `crashed` models the process aborting on
`Option::unwrap` of `None`. -/
inductive TakeTwoOutcome where
  | crashed : TakeTwoOutcome
  | taken (t0 t1 : Triple) : TakeTwoOutcome
  | nothing : TakeTwoOutcome
deriving DecidableEq, Repr

/-- `TripleManager::take_mine_twice`. -/
def take_mine_twice (s : TripleManager) : TakeTwoOutcome × TripleManager :=
  if s.mine.length < 2 then (.nothing, s)
  else
    match s.mine with
    | id0 :: id1 :: rest =>
      if mapContains s.triples id0 && mapContains s.triples id1 then
        match mapRemove s.triples id0 with
        | (none, _) => (.crashed, { s with mine := rest })
        | (some t0, tr1) =>
          match mapRemove tr1 id1 with
          | (none, _) => (.crashed, { s with mine := rest, triples := tr1 })
          | (some t1, tr2) => (.taken t0 t1, { s with mine := rest, triples := tr2 })
      else (.nothing, { s with mine := rest })
    | _ => (.nothing, s)

/-- `TripleManager::get_or_generate`.  `newProtocol` is the result of
`cait_sith::triples::generate_triple(...)`, used only on the vacant path. -/
def get_or_generate (s : TripleManager) (id : TripleId)
    (newProtocol : Except InitializationError TripleProtocol) :
    Except InitializationError (Option TripleProtocol × TripleManager) :=
  if mapContains s.triples id then .ok (none, s)
  else
    match mapLookup s.generators id with
    | some g => .ok (some g.protocol, s)
    | none =>
      match newProtocol with
      | .error e => .error e
      | .ok protocol =>
        .ok (some protocol,
          { s with generators := mapInsert s.generators id ⟨protocol, false⟩ })

end TripleManager

/-! ### `poke`

The inner `loop` of `TripleManager::poke` for one generator: repeatedly poke
the protocol, accumulating outbound messages, until it waits (retained),
returns (completed) or errors (failed). -/

inductive GenOutcome where
  | retained (remaining : TripleProtocol) : GenOutcome
  | completed (share : Nat) (public : Nat) : GenOutcome
  | failed (e : ProtocolError) : GenOutcome
deriving DecidableEq, Repr

def runGenerator (participants : List Participant) (me : Participant)
    (epoch : Nat) (id : TripleId) :
    TripleProtocol → GenOutcome × List (Participant × TripleMessage)
  | [] => (.retained [], [])
  | .err e :: _ => (.failed e, [])
  | .wait :: rest => (.retained rest, [])
  | .sendMany d :: rest =>
    let r := runGenerator participants me epoch id rest
    (r.1, (participants.map fun p => (p, ⟨id, epoch, me, d⟩)) ++ r.2)
  | .sendPrivate p d :: rest =>
    let r := runGenerator participants me epoch id rest
    (r.1, (p, ⟨id, epoch, me, d⟩) :: r.2)
  | .ret sh pb :: _ => (.completed sh pb, [])

/-- Accumulator of the `generators.retain(...)` pass inside `poke`. -/
structure PokeAcc where
  msgs : List (Participant × TripleMessage)
  err : Option ProtocolError
  triples : List (TripleId × Triple)
  mineQ : List TripleId
  gens : List (TripleId × TripleGenerator)
deriving DecidableEq, Repr

def pokeFold (participants : List Participant) (me : Participant) (epoch : Nat) :
    List (TripleId × TripleGenerator) → PokeAcc → PokeAcc
  | [], acc => acc
  | (id, g) :: rest, acc =>
    let r := runGenerator participants me epoch id g.protocol
    match r.1 with
    | .retained remaining =>
      pokeFold participants me epoch rest
        { acc with msgs := acc.msgs ++ r.2,
                   gens := acc.gens ++ [(id, ⟨remaining, g.mine⟩)] }
    | .completed sh pb =>
      pokeFold participants me epoch rest
        { acc with msgs := acc.msgs ++ r.2,
                   triples := mapInsert acc.triples id ⟨id, sh, pb⟩,
                   mineQ := if g.mine then acc.mineQ ++ [id] else acc.mineQ }
    | .failed e =>
      pokeFold participants me epoch rest
        { acc with msgs := acc.msgs ++ r.2, err := some e }

/-- `TripleManager::poke`.  Returns the Rust result together with the state
the mutations left behind (in Rust the mutations of `self` persist even when
the result is `Err`). -/
def TripleManager.poke (s : TripleManager) :
    Except ProtocolError (List (Participant × TripleMessage)) × TripleManager :=
  let acc := pokeFold s.participants s.me s.epoch s.generators
    ⟨[], none, s.triples, s.mine, []⟩
  let s' := { s with triples := acc.triples, mine := acc.mineQ, generators := acc.gens }
  match acc.err with
  | some e => (.error e, s')
  | none => (.ok acc.msgs, s')

/-! ### Basic lemmas about the association-list maps -/

@[simp] theorem mapKeys_nil {α : Type} : mapKeys ([] : List (TripleId × α)) = [] := rfl

@[simp] theorem mapKeys_cons {α : Type} (k : TripleId) (v : α) (t : List (TripleId × α)) :
    mapKeys ((k, v) :: t) = k :: mapKeys t := rfl

theorem mapKeys_append {α : Type} (a b : List (TripleId × α)) :
    mapKeys (a ++ b) = mapKeys a ++ mapKeys b := List.map_append _ a b

theorem mapLookup_cons_self {α : Type} (k : TripleId) (v : α) (t : List (TripleId × α)) :
    mapLookup ((k, v) :: t) k = some v := by simp [mapLookup]

theorem mapLookup_cons_ne {α : Type} {k k' : TripleId} (v : α) (t : List (TripleId × α))
    (h : ¬(k' = k)) : mapLookup ((k', v) :: t) k = mapLookup t k := by
  simp [mapLookup, h]

theorem mapInsert_cons_self {α : Type} (k : TripleId) (w v : α) (t : List (TripleId × α)) :
    mapInsert ((k, w) :: t) k v = (k, v) :: t := by simp [mapInsert]

theorem mapRemove_cons_self {α : Type} (k : TripleId) (w : α) (t : List (TripleId × α)) :
    mapRemove ((k, w) :: t) k = (some w, t) := by simp [mapRemove]

theorem mapContains_iff_mem_keys {α : Type} (m : List (TripleId × α)) (id : TripleId) :
    mapContains m id = true ↔ id ∈ mapKeys m := by
  induction m with
  | nil => simp [mapContains, mapLookup]
  | cons hd t ih =>
    obtain ⟨k, v⟩ := hd
    by_cases h : k = id
    · subst h; simp [mapContains, mapLookup]
    · simp only [mapContains, mapLookup, if_neg h, mapKeys_cons, List.mem_cons]
      rw [← mapContains, ih]
      constructor
      · exact Or.inr
      · rintro (h' | h')
        · exact absurd h'.symm h
        · exact h'

theorem mapContains_false_iff {α : Type} (m : List (TripleId × α)) (id : TripleId) :
    mapContains m id = false ↔ mapLookup m id = none := by
  unfold mapContains
  cases mapLookup m id <;> simp

theorem mapLookup_isSome_of_contains {α : Type} {m : List (TripleId × α)} {id : TripleId}
    (h : mapContains m id = true) : ∃ v, mapLookup m id = some v := by
  simpa [mapContains, Option.isSome_iff_exists] using h

theorem mapInsert_of_not_mem {α : Type} {m : List (TripleId × α)} {id : TripleId}
    (v : α) (h : id ∉ mapKeys m) : mapInsert m id v = m ++ [(id, v)] := by
  induction m with
  | nil => simp [mapInsert]
  | cons hd t ih =>
    obtain ⟨k, w⟩ := hd
    simp only [mapKeys_cons, List.mem_cons] at h
    push_neg at h
    have hk : ¬(k = id) := fun he => h.1 he.symm
    simp only [mapInsert, if_neg hk, List.cons_append]
    rw [ih h.2]

theorem mem_keys_mapInsert {α : Type} (m : List (TripleId × α)) (id k : TripleId) (v : α) :
    k ∈ mapKeys (mapInsert m id v) ↔ k = id ∨ k ∈ mapKeys m := by
  induction m with
  | nil => simp [mapInsert]
  | cons hd t ih =>
    obtain ⟨k', w⟩ := hd
    by_cases h : k' = id
    · subst h
      rw [mapInsert_cons_self]
      simp only [mapKeys_cons, List.mem_cons]
      tauto
    · simp only [mapInsert, if_neg h, mapKeys_cons, List.mem_cons]
      rw [ih]
      tauto

theorem nodup_keys_mapInsert {α : Type} {m : List (TripleId × α)} (id : TripleId) (v : α)
    (h : (mapKeys m).Nodup) : (mapKeys (mapInsert m id v)).Nodup := by
  induction m with
  | nil => simp [mapInsert]
  | cons hd t ih =>
    obtain ⟨k, w⟩ := hd
    simp only [mapKeys_cons, List.nodup_cons] at h
    by_cases hk : k = id
    · subst hk
      rw [mapInsert_cons_self]
      simp only [mapKeys_cons, List.nodup_cons]
      exact h
    · simp only [mapInsert, if_neg hk, mapKeys_cons, List.nodup_cons]
      refine ⟨fun hmem => ?_, ih h.2⟩
      rcases (mem_keys_mapInsert t id k v).mp hmem with h' | h'
      · exact hk h'
      · exact h.1 h'

theorem mapLookup_mapInsert_self {α : Type} (m : List (TripleId × α)) (id : TripleId) (v : α) :
    mapLookup (mapInsert m id v) id = some v := by
  induction m with
  | nil => simp [mapInsert, mapLookup]
  | cons hd t ih =>
    obtain ⟨k, w⟩ := hd
    by_cases h : k = id
    · subst h; simp [mapInsert, mapLookup]
    · simp [mapInsert, if_neg h, mapLookup, ih]

theorem mapLookup_mapInsert_ne {α : Type} (m : List (TripleId × α)) {id k : TripleId} (v : α)
    (h : k ≠ id) : mapLookup (mapInsert m id v) k = mapLookup m k := by
  induction m with
  | nil =>
    have h' : ¬(id = k) := fun he => h he.symm
    simp [mapInsert, mapLookup, h']
  | cons hd t ih =>
    obtain ⟨k', w⟩ := hd
    by_cases h1 : k' = id
    · subst h1
      have h2 : ¬(k' = k) := fun he => h he.symm
      simp [mapInsert, mapLookup, h2]
    · by_cases h2 : k' = k
      · subst h2
        simp [mapInsert, h1, mapLookup]
      · simp [mapInsert, h1, mapLookup, h2, ih]

theorem mapRemove_fst {α : Type} (m : List (TripleId × α)) (id : TripleId) :
    (mapRemove m id).1 = mapLookup m id := by
  induction m with
  | nil => simp [mapRemove, mapLookup]
  | cons hd t ih =>
    obtain ⟨k, w⟩ := hd
    by_cases h : k = id
    · subst h; simp [mapRemove, mapLookup]
    · simp [mapRemove, if_neg h, mapLookup, ih]

theorem mapRemove_snd_sublist {α : Type} (m : List (TripleId × α)) (id : TripleId) :
    (mapRemove m id).2.Sublist m := by
  induction m with
  | nil => simp [mapRemove]
  | cons hd t ih =>
    obtain ⟨k, w⟩ := hd
    by_cases h : k = id
    · subst h
      simp only [mapRemove, if_pos rfl]
      exact List.sublist_cons_self _ _
    · simpa [mapRemove, if_neg h] using ih.cons₂ (k, w)

theorem mapRemove_of_lookup_none {α : Type} {m : List (TripleId × α)} {id : TripleId}
    (h : mapLookup m id = none) : mapRemove m id = (none, m) := by
  induction m with
  | nil => simp [mapRemove]
  | cons hd t ih =>
    obtain ⟨k, w⟩ := hd
    by_cases hk : k = id
    · subst hk; simp [mapLookup] at h
    · simp only [mapLookup, if_neg hk] at h
      simp [mapRemove, if_neg hk, ih h]

theorem mapLookup_mapRemove_ne {α : Type} (m : List (TripleId × α)) {id k : TripleId}
    (h : k ≠ id) : mapLookup (mapRemove m id).2 k = mapLookup m k := by
  induction m with
  | nil => simp [mapRemove]
  | cons hd t ih =>
    obtain ⟨k', w⟩ := hd
    by_cases h1 : k' = id
    · subst h1
      have h2 : ¬(k' = k) := fun he => h he.symm
      simp [mapRemove, mapLookup, h2]
    · by_cases h2 : k' = k
      · subst h2
        simp [mapRemove, h1, mapLookup]
      · simp [mapRemove, h1, mapLookup, h2, ih]

theorem mapContains_mapRemove_self {α : Type} {m : List (TripleId × α)} (id : TripleId)
    (h : (mapKeys m).Nodup) : mapContains (mapRemove m id).2 id = false := by
  induction m with
  | nil => simp [mapRemove, mapContains, mapLookup]
  | cons hd t ih =>
    obtain ⟨k, w⟩ := hd
    simp only [mapKeys_cons, List.nodup_cons] at h
    by_cases hk : k = id
    · subst hk
      rw [mapRemove_cons_self]
      cases hc : mapContains t k
      · rfl
      · exact absurd ((mapContains_iff_mem_keys t k).mp hc) h.1
    · simp only [mapRemove, if_neg hk]
      simp only [mapContains, mapLookup, if_neg hk]
      exact ih h.2

theorem nodup_keys_mapRemove {α : Type} {m : List (TripleId × α)} (id : TripleId)
    (h : (mapKeys m).Nodup) : (mapKeys (mapRemove m id).2).Nodup :=
  h.sublist ((mapRemove_snd_sublist m id).map Prod.fst)

/-! ### Decomposition of `poke` into per-field functions -/

section PokeDecomposition

variable (ps : List Participant) (me : Participant) (ep : Nat)

/-- The generators `poke` retains (those whose run ends in `Wait`), with
their advanced protocol scripts, in iteration order. -/
def retainedOf : List (TripleId × TripleGenerator) → List (TripleId × TripleGenerator)
  | [] => []
  | (id, g) :: rest =>
    match (runGenerator ps me ep id g.protocol).1 with
    | .retained rem => (id, ⟨rem, g.mine⟩) :: retainedOf rest
    | _ => retainedOf rest

/-- Ids of the generators whose run completes during `poke`. -/
def completedIds : List (TripleId × TripleGenerator) → List TripleId
  | [] => []
  | (id, g) :: rest =>
    match (runGenerator ps me ep id g.protocol).1 with
    | .completed _ _ => id :: completedIds rest
    | _ => completedIds rest

/-- The inserts `poke` performs on the completed-triples map. -/
def insertCompleted :
    List (TripleId × TripleGenerator) → List (TripleId × Triple) → List (TripleId × Triple)
  | [], t => t
  | (id, g) :: rest, t =>
    match (runGenerator ps me ep id g.protocol).1 with
    | .completed sh pb => insertCompleted rest (mapInsert t id ⟨id, sh, pb⟩)
    | _ => insertCompleted rest t

/-- The ids `poke` appends to the `mine` queue, in order. -/
def mineAdds : List (TripleId × TripleGenerator) → List TripleId
  | [] => []
  | (id, g) :: rest =>
    match (runGenerator ps me ep id g.protocol).1 with
    | .completed _ _ =>
      if g.mine then id :: mineAdds rest else mineAdds rest
    | _ => mineAdds rest

/-- The `result` variable of `poke` after the pass (last failure wins). -/
def errFold : List (TripleId × TripleGenerator) → Option ProtocolError → Option ProtocolError
  | [], e => e
  | (id, g) :: rest, e =>
    match (runGenerator ps me ep id g.protocol).1 with
    | .failed e' => errFold rest (some e')
    | _ => errFold rest e

/-- All outbound messages collected during the pass, in order. -/
def msgsOf : List (TripleId × TripleGenerator) → List (Participant × TripleMessage)
  | [] => []
  | (id, g) :: rest =>
    (runGenerator ps me ep id g.protocol).2 ++ msgsOf rest

theorem pokeFold_eq (gens : List (TripleId × TripleGenerator)) (acc : PokeAcc) :
    pokeFold ps me ep gens acc =
      { msgs := acc.msgs ++ msgsOf ps me ep gens,
        err := errFold ps me ep gens acc.err,
        triples := insertCompleted ps me ep gens acc.triples,
        mineQ := acc.mineQ ++ mineAdds ps me ep gens,
        gens := acc.gens ++ retainedOf ps me ep gens } := by
  induction gens generalizing acc with
  | nil => simp [pokeFold, msgsOf, errFold, insertCompleted, mineAdds, retainedOf]
  | cons hd rest ih =>
    obtain ⟨id, g⟩ := hd
    simp only [pokeFold, msgsOf, errFold, insertCompleted, mineAdds, retainedOf]
    cases hres : (runGenerator ps me ep id g.protocol).1 with
    | retained rem => simp [ih, List.append_assoc]
    | completed sh pb =>
      cases hm : g.mine <;> simp [ih, hm, List.append_assoc]
    | failed e => simp [ih, List.append_assoc]

theorem poke_snd (s : TripleManager) :
    (s.poke).2 = { s with
      triples := insertCompleted s.participants s.me s.epoch s.generators s.triples,
      mine := s.mine ++ mineAdds s.participants s.me s.epoch s.generators,
      generators := retainedOf s.participants s.me s.epoch s.generators } := by
  unfold TripleManager.poke
  rw [pokeFold_eq]
  cases errFold s.participants s.me s.epoch s.generators none <;> simp

theorem poke_fst_of_errFold_none (s : TripleManager)
    (h : errFold s.participants s.me s.epoch s.generators none = none) :
    (s.poke).1 = .ok (msgsOf s.participants s.me s.epoch s.generators) := by
  unfold TripleManager.poke
  rw [pokeFold_eq]
  simp [h]

theorem poke_fst_of_errFold_some (s : TripleManager) (e : ProtocolError)
    (h : errFold s.participants s.me s.epoch s.generators none = some e) :
    (s.poke).1 = .error e := by
  unfold TripleManager.poke
  rw [pokeFold_eq]
  simp [h]

theorem keys_retainedOf_sublist (gens : List (TripleId × TripleGenerator)) :
    (mapKeys (retainedOf ps me ep gens)).Sublist (mapKeys gens) := by
  induction gens with
  | nil => simp [retainedOf]
  | cons hd rest ih =>
    obtain ⟨id, g⟩ := hd
    cases hres : (runGenerator ps me ep id g.protocol).1 with
    | retained rem =>
      simp only [retainedOf, hres, mapKeys_cons]
      exact ih.cons₂ id
    | completed sh pb =>
      simp only [retainedOf, hres, mapKeys_cons]
      exact ih.cons id
    | failed e =>
      simp only [retainedOf, hres, mapKeys_cons]
      exact ih.cons id

theorem mapLookup_retainedOf_of_not_mem (gens : List (TripleId × TripleGenerator))
    (id : TripleId) (h : id ∉ mapKeys gens) :
    mapLookup (retainedOf ps me ep gens) id = none := by
  rw [← mapContains_false_iff]
  cases hc : mapContains (retainedOf ps me ep gens) id
  · rfl
  · exact absurd
      ((keys_retainedOf_sublist ps me ep gens).subset ((mapContains_iff_mem_keys _ _).mp hc)) h

theorem retainedOf_lookup_retained {gens : List (TripleId × TripleGenerator)}
    {id : TripleId} {g : TripleGenerator} {rem : TripleProtocol}
    (hg : mapLookup gens id = some g)
    (hres : (runGenerator ps me ep id g.protocol).1 = .retained rem) :
    mapLookup (retainedOf ps me ep gens) id = some ⟨rem, g.mine⟩ := by
  induction gens with
  | nil => simp [mapLookup] at hg
  | cons hd rest ih =>
    obtain ⟨k, g'⟩ := hd
    by_cases hk : k = id
    · subst hk
      rw [mapLookup_cons_self] at hg
      injection hg with hg'
      subst hg'
      simp only [retainedOf, hres]
      exact mapLookup_cons_self _ _ _
    · rw [mapLookup_cons_ne _ _ hk] at hg
      cases hres' : (runGenerator ps me ep k g'.protocol).1 with
      | retained rem' =>
        simp only [retainedOf, hres']
        rw [mapLookup_cons_ne _ _ hk]
        exact ih hg
      | completed sh pb =>
        simp only [retainedOf, hres']
        exact ih hg
      | failed e =>
        simp only [retainedOf, hres']
        exact ih hg

theorem retainedOf_lookup_none {gens : List (TripleId × TripleGenerator)}
    {id : TripleId} {g : TripleGenerator}
    (hnd : (mapKeys gens).Nodup) (hg : mapLookup gens id = some g)
    (hres : ∀ rem, (runGenerator ps me ep id g.protocol).1 ≠ .retained rem) :
    mapLookup (retainedOf ps me ep gens) id = none := by
  induction gens with
  | nil => simp [mapLookup] at hg
  | cons hd rest ih =>
    obtain ⟨k, g'⟩ := hd
    simp only [mapKeys_cons, List.nodup_cons] at hnd
    by_cases hk : k = id
    · subst hk
      rw [mapLookup_cons_self] at hg
      injection hg with hg'
      subst hg'
      cases hres2 : (runGenerator ps me ep k g'.protocol).1 with
      | retained rem => exact absurd hres2 (hres rem)
      | completed sh pb =>
        simp only [retainedOf, hres2]
        exact mapLookup_retainedOf_of_not_mem _ _ _ _ _ hnd.1
      | failed e =>
        simp only [retainedOf, hres2]
        exact mapLookup_retainedOf_of_not_mem _ _ _ _ _ hnd.1
    · rw [mapLookup_cons_ne _ _ hk] at hg
      cases hres' : (runGenerator ps me ep k g'.protocol).1 with
      | retained rem' =>
        simp only [retainedOf, hres']
        rw [mapLookup_cons_ne _ _ hk]
        exact ih hnd.2 hg
      | completed sh pb =>
        simp only [retainedOf, hres']
        exact ih hnd.2 hg
      | failed e =>
        simp only [retainedOf, hres']
        exact ih hnd.2 hg

theorem completedIds_subset (gens : List (TripleId × TripleGenerator)) (k : TripleId)
    (h : k ∈ completedIds ps me ep gens) : k ∈ mapKeys gens := by
  induction gens with
  | nil => simp [completedIds] at h
  | cons hd rest ih =>
    obtain ⟨id, g⟩ := hd
    simp only [mapKeys_cons, List.mem_cons]
    cases hres : (runGenerator ps me ep id g.protocol).1 with
    | completed sh pb =>
      simp only [completedIds, hres, List.mem_cons] at h
      rcases h with h | h
      · exact Or.inl h
      · exact Or.inr (ih h)
    | retained rem =>
      simp only [completedIds, hres] at h
      exact Or.inr (ih h)
    | failed e =>
      simp only [completedIds, hres] at h
      exact Or.inr (ih h)

theorem insertCompleted_lookup_of_not_mem (gens : List (TripleId × TripleGenerator))
    (t : List (TripleId × Triple)) (id : TripleId) (h : id ∉ mapKeys gens) :
    mapLookup (insertCompleted ps me ep gens t) id = mapLookup t id := by
  induction gens generalizing t with
  | nil => simp [insertCompleted]
  | cons hd rest ih =>
    obtain ⟨k, g⟩ := hd
    simp only [mapKeys_cons, List.mem_cons] at h
    push_neg at h
    cases hres : (runGenerator ps me ep k g.protocol).1 with
    | completed sh pb =>
      simp only [insertCompleted, hres]
      rw [ih _ h.2, mapLookup_mapInsert_ne _ _ h.1]
    | retained rem =>
      simp only [insertCompleted, hres]
      exact ih t h.2
    | failed e =>
      simp only [insertCompleted, hres]
      exact ih t h.2

theorem insertCompleted_lookup_completed {gens : List (TripleId × TripleGenerator)}
    {id : TripleId} {g : TripleGenerator} {sh pb : Nat}
    (t : List (TripleId × Triple))
    (hnd : (mapKeys gens).Nodup) (hg : mapLookup gens id = some g)
    (hres : (runGenerator ps me ep id g.protocol).1 = .completed sh pb) :
    mapLookup (insertCompleted ps me ep gens t) id = some ⟨id, sh, pb⟩ := by
  induction gens generalizing t with
  | nil => simp [mapLookup] at hg
  | cons hd rest ih =>
    obtain ⟨k, g'⟩ := hd
    simp only [mapKeys_cons, List.nodup_cons] at hnd
    by_cases hk : k = id
    · subst hk
      rw [mapLookup_cons_self] at hg
      injection hg with hg'
      subst hg'
      simp only [insertCompleted, hres]
      rw [insertCompleted_lookup_of_not_mem _ _ _ _ _ _ hnd.1]
      exact mapLookup_mapInsert_self _ _ _
    · rw [mapLookup_cons_ne _ _ hk] at hg
      cases hres' : (runGenerator ps me ep k g'.protocol).1 with
      | completed sh' pb' =>
        simp only [insertCompleted, hres']
        exact ih _ hnd.2 hg
      | retained rem =>
        simp only [insertCompleted, hres']
        exact ih t hnd.2 hg
      | failed e =>
        simp only [insertCompleted, hres']
        exact ih t hnd.2 hg

theorem mem_keys_insertCompleted (gens : List (TripleId × TripleGenerator))
    (t : List (TripleId × Triple)) (k : TripleId)
    (h : k ∈ mapKeys (insertCompleted ps me ep gens t)) :
    k ∈ mapKeys t ∨ k ∈ completedIds ps me ep gens := by
  induction gens generalizing t with
  | nil =>
    simp only [insertCompleted] at h
    exact Or.inl h
  | cons hd rest ih =>
    obtain ⟨id, g⟩ := hd
    cases hres : (runGenerator ps me ep id g.protocol).1 with
    | completed sh pb =>
      simp only [insertCompleted, hres] at h
      rcases ih _ h with h' | h'
      · rcases (mem_keys_mapInsert t id k _).mp h' with h'' | h''
        · right
          simp only [completedIds, hres, List.mem_cons]
          exact Or.inl h''
        · exact Or.inl h''
      · right
        simp only [completedIds, hres, List.mem_cons]
        exact Or.inr h'
    | retained rem =>
      simp only [insertCompleted, hres] at h
      rcases ih _ h with h' | h'
      · exact Or.inl h'
      · right
        simpa only [completedIds, hres] using h'
    | failed e =>
      simp only [insertCompleted, hres] at h
      rcases ih _ h with h' | h'
      · exact Or.inl h'
      · right
        simpa only [completedIds, hres] using h'

theorem nodup_keys_insertCompleted (gens : List (TripleId × TripleGenerator))
    {t : List (TripleId × Triple)} (h : (mapKeys t).Nodup) :
    (mapKeys (insertCompleted ps me ep gens t)).Nodup := by
  induction gens generalizing t with
  | nil => simpa [insertCompleted] using h
  | cons hd rest ih =>
    obtain ⟨id, g⟩ := hd
    cases hres : (runGenerator ps me ep id g.protocol).1 with
    | completed sh pb =>
      simp only [insertCompleted, hres]
      exact ih (nodup_keys_mapInsert _ _ h)
    | retained rem =>
      simp only [insertCompleted, hres]
      exact ih h
    | failed e =>
      simp only [insertCompleted, hres]
      exact ih h

theorem completed_not_retained {gens : List (TripleId × TripleGenerator)}
    (hnd : (mapKeys gens).Nodup) {k : TripleId}
    (h : k ∈ completedIds ps me ep gens) : k ∉ mapKeys (retainedOf ps me ep gens) := by
  induction gens with
  | nil => simp [completedIds] at h
  | cons hd rest ih =>
    obtain ⟨id, g⟩ := hd
    simp only [mapKeys_cons, List.nodup_cons] at hnd
    cases hres : (runGenerator ps me ep id g.protocol).1 with
    | completed sh pb =>
      simp only [completedIds, hres, List.mem_cons] at h
      simp only [retainedOf, hres]
      rcases h with h | h
      · subst h
        intro hmem
        exact hnd.1 ((keys_retainedOf_sublist ps me ep rest).subset hmem)
      · exact ih hnd.2 h
    | retained rem =>
      simp only [completedIds, hres] at h
      simp only [retainedOf, hres, mapKeys_cons, List.mem_cons]
      rintro (h' | h')
      · subst h'
        exact hnd.1 (completedIds_subset ps me ep rest _ h)
      · exact ih hnd.2 h h'
    | failed e =>
      simp only [completedIds, hres] at h
      simp only [retainedOf, hres]
      exact ih hnd.2 h

theorem mineAdds_subset (gens : List (TripleId × TripleGenerator)) (k : TripleId)
    (h : k ∈ mineAdds ps me ep gens) : k ∈ mapKeys gens := by
  induction gens with
  | nil => simp [mineAdds] at h
  | cons hd rest ih =>
    obtain ⟨id, g⟩ := hd
    simp only [mapKeys_cons, List.mem_cons]
    cases hres : (runGenerator ps me ep id g.protocol).1 with
    | completed sh pb =>
      simp only [mineAdds, hres] at h
      cases hm : g.mine
      · rw [hm] at h
        simp at h
        exact Or.inr (ih h)
      · rw [hm] at h
        simp at h
        rcases h with h | h
        · exact Or.inl h
        · exact Or.inr (ih h)
    | retained rem =>
      simp only [mineAdds, hres] at h
      exact Or.inr (ih h)
    | failed e =>
      simp only [mineAdds, hres] at h
      exact Or.inr (ih h)

theorem count_mineAdds_completed {gens : List (TripleId × TripleGenerator)}
    {id : TripleId} {g : TripleGenerator} {sh pb : Nat}
    (hnd : (mapKeys gens).Nodup) (hg : mapLookup gens id = some g)
    (hres : (runGenerator ps me ep id g.protocol).1 = .completed sh pb) :
    (mineAdds ps me ep gens).count id = if g.mine then 1 else 0 := by
  induction gens with
  | nil => simp [mapLookup] at hg
  | cons hd rest ih =>
    obtain ⟨k, g'⟩ := hd
    simp only [mapKeys_cons, List.nodup_cons] at hnd
    by_cases hk : k = id
    · subst hk
      rw [mapLookup_cons_self] at hg
      injection hg with hg'
      subst hg'
      have hrest : (mineAdds ps me ep rest).count k = 0 :=
        List.count_eq_zero.mpr fun hmem => hnd.1 (mineAdds_subset ps me ep rest _ hmem)
      cases hm : g'.mine
      · simp only [mineAdds, hres, hm, Bool.false_eq_true, if_false]
        exact hrest
      · simp only [mineAdds, hres, hm, if_true]
        rw [List.count_cons_self, hrest]
    · rw [mapLookup_cons_ne _ _ hk] at hg
      cases hres' : (runGenerator ps me ep k g'.protocol).1 with
      | completed sh' pb' =>
        cases hm : g'.mine
        · simp only [mineAdds, hres', hm, Bool.false_eq_true, if_false]
          exact ih hnd.2 hg
        · simp only [mineAdds, hres', hm, if_true]
          rw [List.count_cons_of_ne (fun he => hk he.symm), ih hnd.2 hg]
      | retained rem =>
        simp only [mineAdds, hres']
        exact ih hnd.2 hg
      | failed e =>
        simp only [mineAdds, hres']
        exact ih hnd.2 hg

theorem errFold_some_isSome (gens : List (TripleId × TripleGenerator)) (e : ProtocolError) :
    ∃ e', errFold ps me ep gens (some e) = some e' := by
  induction gens generalizing e with
  | nil => exact ⟨e, rfl⟩
  | cons hd rest ih =>
    obtain ⟨id, g⟩ := hd
    cases hres : (runGenerator ps me ep id g.protocol).1 with
    | failed e2 =>
      simp only [errFold, hres]
      exact ih e2
    | retained rem =>
      simp only [errFold, hres]
      exact ih e
    | completed sh pb =>
      simp only [errFold, hres]
      exact ih e

theorem errFold_some_of_failed {gens : List (TripleId × TripleGenerator)}
    {id : TripleId} {g : TripleGenerator} {e : ProtocolError}
    (hg : mapLookup gens id = some g)
    (hres : (runGenerator ps me ep id g.protocol).1 = .failed e)
    (e0 : Option ProtocolError) :
    ∃ e', errFold ps me ep gens e0 = some e' := by
  induction gens generalizing e0 with
  | nil => simp [mapLookup] at hg
  | cons hd rest ih =>
    obtain ⟨k, g'⟩ := hd
    by_cases hk : k = id
    · subst hk
      rw [mapLookup_cons_self] at hg
      injection hg with hg'
      subst hg'
      simp only [errFold, hres]
      exact errFold_some_isSome ps me ep rest e
    · rw [mapLookup_cons_ne _ _ hk] at hg
      cases hres' : (runGenerator ps me ep k g'.protocol).1 with
      | failed e2 =>
        simp only [errFold, hres']
        exact errFold_some_isSome ps me ep rest e2
      | retained rem =>
        simp only [errFold, hres']
        exact ih hg e0
      | completed sh pb =>
        simp only [errFold, hres']
        exact ih hg e0

end PokeDecomposition

/-! ### Reachability and the at-most-once invariant -/

/-- The at-most-once property of the spec: no id is simultaneously a key of
the completed-triples map and of the generators map. -/
def atMostOnce (s : TripleManager) : Prop :=
  ∀ id : TripleId, ¬(mapContains s.triples id = true ∧ mapContains s.generators id = true)

/-- Strengthened invariant: unique keys in both maps and key-disjointness. -/
def wellFormed (s : TripleManager) : Prop :=
  (mapKeys s.triples).Nodup ∧ (mapKeys s.generators).Nodup ∧
    ∀ id, id ∈ mapKeys s.triples → id ∉ mapKeys s.generators

theorem not_mem_keys_of_contains_false {α : Type} {m : List (TripleId × α)} {id : TripleId}
    (h : mapContains m id = false) : id ∉ mapKeys m := fun hmem => by
  have h' := (mapContains_iff_mem_keys m id).mpr hmem
  rw [h] at h'
  exact Bool.noConfusion h'

/-- States reachable from a fresh manager by `generate`, `get_or_generate`,
`take`, `take_mine_twice` and `poke`, with the sampled id and the opaque
protocol objects chosen arbitrarily (as the environment may). -/
inductive Reachable : TripleManager → Prop where
  | init (participants : List Participant) (me : Participant) (threshold epoch : Nat) :
      Reachable (TripleManager.new participants me threshold epoch)
  | generate {s s' : TripleManager} (id : TripleId)
      (np : Except InitializationError TripleProtocol) :
      Reachable s → s.generate id np = .ok s' → Reachable s'
  | get_or_generate {s s' : TripleManager} (id : TripleId)
      (np : Except InitializationError TripleProtocol) (r : Option TripleProtocol) :
      Reachable s → s.get_or_generate id np = .ok (r, s') → Reachable s'
  | take {s : TripleManager} (id : TripleId) :
      Reachable s → Reachable (s.take id).2
  | take_mine_twice {s : TripleManager} :
      Reachable s → Reachable (s.take_mine_twice).2
  | poke {s : TripleManager} :
      Reachable s → Reachable (s.poke).2

/-- Same reachability, but every `generate` call uses an id that collides with
neither the completed map nor the generators map (the collision-rejection the
spec prescribes). -/
inductive ReachableFresh : TripleManager → Prop where
  | init (participants : List Participant) (me : Participant) (threshold epoch : Nat) :
      ReachableFresh (TripleManager.new participants me threshold epoch)
  | generate {s s' : TripleManager} (id : TripleId)
      (np : Except InitializationError TripleProtocol) :
      ReachableFresh s →
      mapContains s.triples id = false → mapContains s.generators id = false →
      s.generate id np = .ok s' → ReachableFresh s'
  | get_or_generate {s s' : TripleManager} (id : TripleId)
      (np : Except InitializationError TripleProtocol) (r : Option TripleProtocol) :
      ReachableFresh s → s.get_or_generate id np = .ok (r, s') → ReachableFresh s'
  | take {s : TripleManager} (id : TripleId) :
      ReachableFresh s → ReachableFresh (s.take id).2
  | take_mine_twice {s : TripleManager} :
      ReachableFresh s → ReachableFresh (s.take_mine_twice).2
  | poke {s : TripleManager} :
      ReachableFresh s → ReachableFresh (s.poke).2

theorem wellFormed_new (ps : List Participant) (me : Participant) (th ep : Nat) :
    wellFormed (TripleManager.new ps me th ep) := by
  refine ⟨List.nodup_nil, List.nodup_nil, ?_⟩
  intro id h
  simp [TripleManager.new] at h

theorem wellFormed_generate_fresh {s s' : TripleManager} {id : TripleId}
    {np : Except InitializationError TripleProtocol}
    (hw : wellFormed s)
    (ht : mapContains s.triples id = false) (hgen : mapContains s.generators id = false)
    (heq : s.generate id np = .ok s') : wellFormed s' := by
  cases np with
  | error e => simp [TripleManager.generate] at heq
  | ok p =>
    simp only [TripleManager.generate] at heq
    injection heq with heq'
    subst heq'
    refine ⟨hw.1, nodup_keys_mapInsert _ _ hw.2.1, ?_⟩
    intro id' hmem hmem'
    rcases (mem_keys_mapInsert s.generators id id' _).mp hmem' with h | h
    · subst h
      exact not_mem_keys_of_contains_false ht hmem
    · exact hw.2.2 id' hmem h

theorem wellFormed_get_or_generate {s s' : TripleManager} {id : TripleId}
    {np : Except InitializationError TripleProtocol} {r : Option TripleProtocol}
    (hw : wellFormed s) (heq : s.get_or_generate id np = .ok (r, s')) : wellFormed s' := by
  unfold TripleManager.get_or_generate at heq
  by_cases hc : mapContains s.triples id = true
  · rw [if_pos hc] at heq
    injection heq with heq'
    injection heq' with _ heq''
    subst heq''
    exact hw
  · rw [if_neg hc] at heq
    cases hl : mapLookup s.generators id with
    | some g =>
      rw [hl] at heq
      injection heq with heq'
      injection heq' with _ heq''
      subst heq''
      exact hw
    | none =>
      rw [hl] at heq
      cases np with
      | error e => simp at heq
      | ok p =>
        simp only at heq
        injection heq with heq'
        injection heq' with _ heq''
        subst heq''
        refine ⟨hw.1, nodup_keys_mapInsert _ _ hw.2.1, ?_⟩
        intro id' hmem hmem'
        rcases (mem_keys_mapInsert s.generators id id' _).mp hmem' with h | h
        · subst h
          rw [Bool.not_eq_true] at hc
          exact not_mem_keys_of_contains_false hc hmem
        · exact hw.2.2 id' hmem h

theorem wellFormed_take {s : TripleManager} (id : TripleId)
    (hw : wellFormed s) : wellFormed (s.take id).2 := by
  refine ⟨nodup_keys_mapRemove _ hw.1, hw.2.1, ?_⟩
  intro id' hmem
  exact hw.2.2 id' (((mapRemove_snd_sublist s.triples id).map Prod.fst).subset hmem)

theorem take_mine_twice_frame (s : TripleManager) :
    (s.take_mine_twice).2.triples.Sublist s.triples ∧
    (s.take_mine_twice).2.generators = s.generators := by
  unfold TripleManager.take_mine_twice
  repeat' split
  all_goals try exact ⟨List.Sublist.refl _, rfl⟩
  · rename_i id0 id1 rest hm hc x1 t0 tr1 h1 x2 snd2 h2
    have ha := mapRemove_snd_sublist s.triples id0
    rw [h1] at ha
    exact ⟨ha, rfl⟩
  · rename_i id0 id1 rest hm hc x1 t0 tr1 h1 x2 t1 tr2 h2
    have ha := mapRemove_snd_sublist s.triples id0
    rw [h1] at ha
    have hb := mapRemove_snd_sublist tr1 id1
    rw [h2] at hb
    exact ⟨hb.trans ha, rfl⟩

theorem wellFormed_take_mine_twice {s : TripleManager}
    (hw : wellFormed s) : wellFormed (s.take_mine_twice).2 := by
  obtain ⟨hsub, hgens⟩ := take_mine_twice_frame s
  refine ⟨hw.1.sublist (hsub.map Prod.fst), ?_, ?_⟩
  · rw [hgens]
    exact hw.2.1
  · intro id' hmem
    rw [hgens]
    exact hw.2.2 id' ((hsub.map Prod.fst).subset hmem)

theorem wellFormed_poke {s : TripleManager} (hw : wellFormed s) :
    wellFormed (s.poke).2 := by
  rw [poke_snd]
  refine ⟨nodup_keys_insertCompleted _ _ _ _ hw.1,
    hw.2.1.sublist (keys_retainedOf_sublist _ _ _ _), ?_⟩
  intro id' hmem hmem'
  rcases mem_keys_insertCompleted _ _ _ _ _ _ hmem with h | h
  · exact hw.2.2 id' h ((keys_retainedOf_sublist _ _ _ _).subset hmem')
  · exact completed_not_retained _ _ _ hw.2.1 h hmem'

theorem wellFormed_of_reachableFresh {s : TripleManager} (h : ReachableFresh s) :
    wellFormed s := by
  induction h with
  | init ps me th ep => exact wellFormed_new ps me th ep
  | generate id np _ ht hgen heq ih => exact wellFormed_generate_fresh ih ht hgen heq
  | get_or_generate id np r _ heq ih => exact wellFormed_get_or_generate ih heq
  | take id _ ih => exact wellFormed_take id ih
  | take_mine_twice _ ih => exact wellFormed_take_mine_twice ih
  | poke _ ih => exact wellFormed_poke ih

/-! ### Claim C1 -/

def cexC1_s0 : TripleManager := TripleManager.new [0, 1] 0 2 7

def cexC1_s1 : TripleManager :=
  { cexC1_s0 with generators := [(5, ⟨[.ret 1 2], true⟩)] }

def cexC1_s2 : TripleManager := (cexC1_s1.poke).2

def cexC1_s3 : TripleManager :=
  { cexC1_s2 with generators := mapInsert cexC1_s2.generators 5 ⟨[.wait], true⟩ }

/-- C1 counterexample: from a fresh manager, `generate 5`, then `poke`
(completing triple 5), then `generate` with the colliding random id 5 reaches
a state where id 5 is a key of both the completed-triples map and the
generators map — the at-most-once invariant fails on reachable states,
because `generate` performs no collision check. -/
theorem reachable_violates_atMostOnce :
    Reachable cexC1_s3 ∧
    mapContains cexC1_s3.triples 5 = true ∧
    mapContains cexC1_s3.generators 5 = true := by
  refine ⟨?_, by decide, by decide⟩
  have h0 : Reachable cexC1_s0 := Reachable.init [0, 1] 0 2 7
  have h1 : Reachable cexC1_s1 := Reachable.generate 5 (.ok [.ret 1 2]) h0 rfl
  have h2 : Reachable cexC1_s2 := Reachable.poke h1
  exact Reachable.generate 5 (.ok [.wait]) h2 rfl

/-- C1 (amended): in every state reachable from a fresh manager by
`generate`, `get_or_generate`, `take`, `take_mine_twice` and `poke`, where
every `generate` call's random id collides with neither the completed map
nor the generators map, no TripleId is simultaneously a key of both maps. -/
theorem reachableFresh_atMostOnce {s : TripleManager} (h : ReachableFresh s) :
    atMostOnce s := by
  have hw := wellFormed_of_reachableFresh h
  intro id hid
  exact hw.2.2 id ((mapContains_iff_mem_keys _ _).mp hid.1)
    ((mapContains_iff_mem_keys _ _).mp hid.2)

def wC1_s0 : TripleManager := TripleManager.new [0, 1] 0 2 7

def wC1_s1 : TripleManager :=
  { wC1_s0 with generators := [(5, ⟨[.ret 1 2], true⟩)] }

def wC1_s2 : TripleManager := (wC1_s1.poke).2

/-- Witness for `reachableFresh_atMostOnce` at a concrete reachable state. -/
theorem reachableFresh_atMostOnce_witness :
    ReachableFresh wC1_s2 ∧ atMostOnce wC1_s2 := by
  have h0 : ReachableFresh wC1_s0 := ReachableFresh.init [0, 1] 0 2 7
  have h1 : ReachableFresh wC1_s1 :=
    ReachableFresh.generate 5 (.ok [.ret 1 2]) h0 rfl rfl rfl
  have h2 : ReachableFresh wC1_s2 := ReachableFresh.poke h1
  exact ⟨h2, reachableFresh_atMostOnce h2⟩

/-! ### Claim C2 -/

def cexC2_s : TripleManager :=
  { triples := [(5, ⟨5, 1, 2⟩)], generators := [], mine := [5],
    participants := [0, 1], me := 0, threshold := 2, epoch := 7 }

def cexC2_s2 : TripleManager :=
  { triples := [], generators := [(5, ⟨[.wait], false⟩)], mine := [],
    participants := [0, 1], me := 0, threshold := 2, epoch := 7 }

/-- C2 counterexample: `generate` performs no collision check.  With id 5
already in the completed map it still installs a generator under 5; with id 5
already in the generators map it overwrites the existing generator. -/
theorem generate_collision_not_rejected :
    mapContains cexC2_s.triples 5 = true ∧
    cexC2_s.generate 5 (.ok [.wait]) =
      .ok { cexC2_s with generators := [(5, ⟨[.wait], true⟩)] } ∧
    mapContains cexC2_s2.generators 5 = true ∧
    cexC2_s2.generate 5 (.ok [.sendMany 3]) =
      .ok { cexC2_s2 with generators := [(5, ⟨[.sendMany 3], true⟩)] } :=
  ⟨rfl, rfl, rfl, rfl⟩

/-- C2 (amended): `generate` installs the generator under the sampled random
id unconditionally — it never consults the completed-triples map or the
generators map, and a colliding id replaces the existing generator entry via
map insert; the completed map is left untouched. -/
theorem generate_inserts_unconditionally (s : TripleManager) (id : TripleId)
    (p : TripleProtocol) :
    s.generate id (.ok p) =
      .ok { s with generators := mapInsert s.generators id ⟨p, true⟩ } := rfl

/-! ### Claim C3 -/

def cexC3_s : TripleManager :=
  { triples := [(1, ⟨1, 10, 20⟩)], generators := [], mine := [1],
    participants := [0, 1], me := 0, threshold := 2, epoch := 7 }

/-- C3 counterexample: `take 1` removes the completed triple but leaves id 1
in the `mine` queue; `my_len` is not decremented. -/
theorem take_leaves_mine_queue :
    (cexC3_s.take 1).1 = some ⟨1, 10, 20⟩ ∧
    mapContains (cexC3_s.take 1).2.triples 1 = false ∧
    (cexC3_s.take 1).2.mine = [1] ∧
    (cexC3_s.take 1).2.my_len = 1 :=
  ⟨rfl, rfl, rfl, rfl⟩

/-- C3 (amended): `take id` removes `id` from the completed-triples map only
and returns the removed triple; the `mine` queue and the generators map are
left unchanged (even when `id` is mine), and when `id` is not in the
completed map it returns `none` and leaves the whole state unchanged. -/
theorem take_spec (s : TripleManager) (id : TripleId)
    (h : (mapKeys s.triples).Nodup) :
    (s.take id).1 = mapLookup s.triples id ∧
    (s.take id).2.mine = s.mine ∧
    (s.take id).2.generators = s.generators ∧
    mapContains (s.take id).2.triples id = false ∧
    (mapLookup s.triples id = none → (s.take id).2 = s) := by
  refine ⟨mapRemove_fst _ _, rfl, rfl, mapContains_mapRemove_self _ h, fun hn => ?_⟩
  unfold TripleManager.take
  rw [mapRemove_of_lookup_none hn]

/-- Witness for `take_spec` at a concrete state. -/
theorem take_spec_witness :
    (mapKeys cexC3_s.triples).Nodup ∧
    ((cexC3_s.take 1).1 = mapLookup cexC3_s.triples 1 ∧
     (cexC3_s.take 1).2.mine = cexC3_s.mine ∧
     (cexC3_s.take 1).2.generators = cexC3_s.generators ∧
     mapContains (cexC3_s.take 1).2.triples 1 = false ∧
     (mapLookup cexC3_s.triples 1 = none → (cexC3_s.take 1).2 = cexC3_s)) :=
  ⟨by decide, take_spec cexC3_s 1 (by decide)⟩

/-! ### Claim C4 -/

def cexC4_s : TripleManager :=
  { triples := [], generators := [(9, ⟨[.sendMany 7, .wait], true⟩)], mine := [],
    participants := [0, 1, 2], me := 0, threshold := 2, epoch := 4 }

/-- C4 counterexample: with `me = 0 ∈ participants`, `poke` on a generator
whose protocol broadcasts (`SendMany`) returns a message addressed to `me`
itself — the loop iterates over all participants without excluding self. -/
theorem poke_broadcast_includes_self :
    cexC4_s.me ∈ cexC4_s.participants ∧
    (cexC4_s.poke).1 =
      .ok [(0, ⟨9, 4, 0, 7⟩), (1, ⟨9, 4, 0, 7⟩), (2, ⟨9, 4, 0, 7⟩)] ∧
    (cexC4_s.me, (⟨9, 4, 0, 7⟩ : TripleMessage)) ∈
      [((0 : Participant), (⟨9, 4, 0, 7⟩ : TripleMessage)),
       (1, ⟨9, 4, 0, 7⟩), (2, ⟨9, 4, 0, 7⟩)] :=
  ⟨by decide, rfl, by decide⟩

/-- C4 (amended): a `SendMany` (broadcast) action yields exactly one message
per participant — *including* the node itself when `me ∈ participants`; self
is not excluded. -/
theorem poke_sendMany_one_message_per_participant
    (ps : List Participant) (me : Participant) (th ep : Nat)
    (trips : List (TripleId × Triple)) (mq : List TripleId)
    (id : TripleId) (d : Bytes) (mine : Bool) (rest : TripleProtocol)
    (hme : me ∈ ps) :
    ((TripleManager.mk trips [(id, ⟨.sendMany d :: .wait :: rest, mine⟩)]
        mq ps me th ep).poke).1 =
      .ok (ps.map fun p => (p, ⟨id, ep, me, d⟩)) ∧
    (me, (⟨id, ep, me, d⟩ : TripleMessage)) ∈
      ps.map fun p => (p, (⟨id, ep, me, d⟩ : TripleMessage)) := by
  constructor
  · have herr :
        errFold ps me ep [(id, ⟨.sendMany d :: .wait :: rest, mine⟩)] none = none := by
      simp [errFold, runGenerator]
    rw [poke_fst_of_errFold_none _ herr]
    simp [msgsOf, runGenerator]
  · exact List.mem_map.mpr ⟨me, hme, rfl⟩

/-- Witness for `poke_sendMany_one_message_per_participant`. -/
theorem poke_sendMany_one_message_per_participant_witness :
    (1 : Participant) ∈ [0, 1, 2] ∧
    (((TripleManager.mk [] [(9, ⟨[.sendMany 7, .wait], true⟩)] [] [0, 1, 2] 1 2 4).poke).1 =
      .ok ([0, 1, 2].map fun p => (p, ⟨9, 4, 1, 7⟩)) ∧
     ((1 : Participant), (⟨9, 4, 1, 7⟩ : TripleMessage)) ∈
       [0, 1, 2].map fun p => (p, (⟨9, 4, 1, 7⟩ : TripleMessage))) :=
  ⟨by decide,
    poke_sendMany_one_message_per_participant [0, 1, 2] 1 2 4 [] [] 9 7 true []
      (by decide)⟩

/-! ### Claim C5 -/

def cexC5_s : TripleManager :=
  { triples := [(5, ⟨5, 1, 2⟩)], generators := [], mine := [5, 5],
    participants := [0, 1], me := 0, threshold := 2, epoch := 7 }

/-- C5 counterexample: when the two popped head ids are equal (and present),
`take_mine_twice` does not return `Some` — the second `HashMap::remove`
yields `None` and the `unwrap` aborts the process. -/
theorem take_mine_twice_duplicate_crash :
    cexC5_s.mine = [5, 5] ∧
    mapContains cexC5_s.triples 5 = true ∧
    (cexC5_s.take_mine_twice).1 = .crashed :=
  ⟨rfl, rfl, rfl⟩

/-- C5 (amended): when the mine queue holds at least two ids and the two head
ids are distinct, `take_mine_twice` pops exactly those two ids (FIFO) and is
all-or-nothing on the completed map: it returns the two triples and removes
both exactly when both ids are present, otherwise it returns `nothing` and
leaves the completed map unchanged; the popped ids are never re-queued and
the generators map is untouched.  (With equal head ids that are present the
call crashes on `unwrap` instead of returning.) -/
theorem take_mine_twice_spec (s : TripleManager) (id0 id1 : TripleId)
    (rest : List TripleId)
    (hm : s.mine = id0 :: id1 :: rest) (hne : id0 ≠ id1)
    (hnd : (mapKeys s.triples).Nodup) :
    (mapContains s.triples id0 = true → mapContains s.triples id1 = true →
      ∃ t0 t1, mapLookup s.triples id0 = some t0 ∧
        mapLookup s.triples id1 = some t1 ∧
        (s.take_mine_twice).1 = .taken t0 t1 ∧
        mapContains (s.take_mine_twice).2.triples id0 = false ∧
        mapContains (s.take_mine_twice).2.triples id1 = false) ∧
    (¬(mapContains s.triples id0 = true ∧ mapContains s.triples id1 = true) →
      (s.take_mine_twice).1 = .nothing ∧
      (s.take_mine_twice).2.triples = s.triples) ∧
    (s.take_mine_twice).2.mine = rest ∧
    (s.take_mine_twice).2.generators = s.generators := by
  obtain ⟨tr, gens, mq, pps, mme, th, ep⟩ := s
  simp only at hm hnd ⊢
  subst hm
  have hlen : ¬((id0 :: id1 :: rest).length < 2) := by
    simp [List.length_cons]
  unfold TripleManager.take_mine_twice
  simp only [hlen, if_false]
  by_cases hc : (mapContains tr id0 && mapContains tr id1) = true
  · obtain ⟨hc0, hc1⟩ := Bool.and_eq_true_iff.mp hc
    obtain ⟨t0, ht0⟩ := mapLookup_isSome_of_contains hc0
    obtain ⟨t1, ht1⟩ := mapLookup_isSome_of_contains hc1
    rcases hrem0 : mapRemove tr id0 with ⟨o0, tr1⟩
    have ho0 : o0 = some t0 := by
      have h3 := mapRemove_fst tr id0
      rw [hrem0, ht0] at h3
      exact h3
    subst ho0
    have ht1' : mapLookup tr1 id1 = some t1 := by
      have h3 := @mapLookup_mapRemove_ne _ tr id0 id1 (fun he => hne he.symm)
      rw [hrem0] at h3
      exact h3.trans ht1
    rcases hrem1 : mapRemove tr1 id1 with ⟨o1, tr2⟩
    have ho1 : o1 = some t1 := by
      have h3 := mapRemove_fst tr1 id1
      rw [hrem1, ht1'] at h3
      exact h3
    subst ho1
    simp only [hc, eq_self_iff_true, if_true, hrem0, hrem1]
    refine ⟨fun _ _ => ⟨t0, t1, ht0, ht1, by trivial, ?_, ?_⟩, fun hcontra => ?_,
      by trivial, by trivial⟩
    · have h1 : mapContains tr1 id0 = false := by
        have h3 := mapContains_mapRemove_self id0 hnd
        rw [hrem0] at h3
        exact h3
      have h2 : mapLookup tr2 id0 = mapLookup tr1 id0 := by
        have h3 := @mapLookup_mapRemove_ne _ tr1 id1 id0 hne
        rw [hrem1] at h3
        exact h3
      rw [mapContains_false_iff] at h1 ⊢
      rw [h2]
      exact h1
    · have hnd1 : (mapKeys tr1).Nodup := by
        have h3 := nodup_keys_mapRemove id0 hnd
        rw [hrem0] at h3
        exact h3
      have h3 := mapContains_mapRemove_self id1 hnd1
      rw [hrem1] at h3
      exact h3
    · exact absurd ⟨hc0, hc1⟩ hcontra
  · simp only [hc, if_false]
    have hcontra : ¬(mapContains tr id0 = true ∧ mapContains tr id1 = true) := by
      intro ⟨h0, h1⟩
      exact hc (Bool.and_eq_true_iff.mpr ⟨h0, h1⟩)
    exact ⟨fun h0 h1 => absurd ⟨h0, h1⟩ hcontra, fun _ => ⟨rfl, rfl⟩, rfl, rfl⟩

def wC5_s : TripleManager :=
  { triples := [(4, ⟨4, 1, 2⟩), (6, ⟨6, 3, 4⟩)], generators := [], mine := [4, 6],
    participants := [0, 1], me := 0, threshold := 2, epoch := 7 }

/-- Witness for `take_mine_twice_spec` at a concrete state. -/
theorem take_mine_twice_spec_witness :
    wC5_s.mine = 4 :: 6 :: [] ∧ (4 : TripleId) ≠ 6 ∧ (mapKeys wC5_s.triples).Nodup ∧
    ((mapContains wC5_s.triples 4 = true → mapContains wC5_s.triples 6 = true →
       ∃ t0 t1, mapLookup wC5_s.triples 4 = some t0 ∧
         mapLookup wC5_s.triples 6 = some t1 ∧
         (wC5_s.take_mine_twice).1 = .taken t0 t1 ∧
         mapContains (wC5_s.take_mine_twice).2.triples 4 = false ∧
         mapContains (wC5_s.take_mine_twice).2.triples 6 = false) ∧
     (¬(mapContains wC5_s.triples 4 = true ∧ mapContains wC5_s.triples 6 = true) →
       (wC5_s.take_mine_twice).1 = .nothing ∧
       (wC5_s.take_mine_twice).2.triples = wC5_s.triples) ∧
     (wC5_s.take_mine_twice).2.mine = [] ∧
     (wC5_s.take_mine_twice).2.generators = wC5_s.generators) :=
  ⟨rfl, by decide, by decide,
    take_mine_twice_spec wC5_s 4 6 [] rfl (by decide) (by decide)⟩

/-! ### Claim C6 -/

/-- C6: for every generator during `poke`: on `Return` the completed triple
is inserted under the generator's id, the id is appended to the mine queue
iff the generator was mine, and the generator is dropped; on protocol
failure the generator is dropped and an error is reported; on `Wait` the
generator is retained with its advanced protocol. -/
theorem poke_generator_lifecycle (s : TripleManager) (id : TripleId)
    (g : TripleGenerator)
    (hnd : (mapKeys s.generators).Nodup)
    (hg : mapLookup s.generators id = some g) :
    (∀ sh pb,
      (runGenerator s.participants s.me s.epoch id g.protocol).1 = .completed sh pb →
      mapLookup (s.poke).2.triples id = some ⟨id, sh, pb⟩ ∧
      (s.poke).2.mine.count id = s.mine.count id + (if g.mine then 1 else 0) ∧
      mapLookup (s.poke).2.generators id = none) ∧
    (∀ e,
      (runGenerator s.participants s.me s.epoch id g.protocol).1 = .failed e →
      mapLookup (s.poke).2.generators id = none ∧
      ∃ e', (s.poke).1 = .error e') ∧
    (∀ rem,
      (runGenerator s.participants s.me s.epoch id g.protocol).1 = .retained rem →
      mapLookup (s.poke).2.generators id = some ⟨rem, g.mine⟩) := by
  refine ⟨fun sh pb hres => ?_, fun e hres => ?_, fun rem hres => ?_⟩
  · rw [poke_snd]
    refine ⟨insertCompleted_lookup_completed _ _ _ _ hnd hg hres, ?_,
      retainedOf_lookup_none _ _ _ hnd hg ?_⟩
    · simp only [List.count_append]
      rw [count_mineAdds_completed _ _ _ hnd hg hres]
    · intro rem hcontra
      rw [hres] at hcontra
      exact GenOutcome.noConfusion hcontra
  · obtain ⟨e', he'⟩ := errFold_some_of_failed _ _ _ hg hres none
    refine ⟨?_, e', poke_fst_of_errFold_some _ _ he'⟩
    rw [poke_snd]
    refine retainedOf_lookup_none _ _ _ hnd hg ?_
    intro rem hcontra
    rw [hres] at hcontra
    exact GenOutcome.noConfusion hcontra
  · rw [poke_snd]
    exact retainedOf_lookup_retained _ _ _ hg hres

def wC6_s : TripleManager :=
  { triples := [], generators := [(2, ⟨[.ret 8 9], true⟩), (3, ⟨[.wait], false⟩)],
    mine := [], participants := [0, 1], me := 0, threshold := 2, epoch := 7 }

/-- Witness for `poke_generator_lifecycle` at a concrete state whose
generator 2 completes. -/
theorem poke_generator_lifecycle_witness :
    (mapKeys wC6_s.generators).Nodup ∧
    mapLookup wC6_s.generators 2 = some ⟨[.ret 8 9], true⟩ ∧
    ((∀ sh pb,
       (runGenerator wC6_s.participants wC6_s.me wC6_s.epoch 2
         (TripleGenerator.mk [.ret 8 9] true).protocol).1 = .completed sh pb →
       mapLookup (wC6_s.poke).2.triples 2 = some ⟨2, sh, pb⟩ ∧
       (wC6_s.poke).2.mine.count 2 = wC6_s.mine.count 2 +
         (if (TripleGenerator.mk [.ret 8 9] true).mine then 1 else 0) ∧
       mapLookup (wC6_s.poke).2.generators 2 = none) ∧
     (∀ e,
       (runGenerator wC6_s.participants wC6_s.me wC6_s.epoch 2
         (TripleGenerator.mk [.ret 8 9] true).protocol).1 = .failed e →
       mapLookup (wC6_s.poke).2.generators 2 = none ∧
       ∃ e', (wC6_s.poke).1 = .error e') ∧
     (∀ rem,
       (runGenerator wC6_s.participants wC6_s.me wC6_s.epoch 2
         (TripleGenerator.mk [.ret 8 9] true).protocol).1 = .retained rem →
       mapLookup (wC6_s.poke).2.generators 2 = some ⟨rem, true⟩)) :=
  ⟨by decide, rfl, poke_generator_lifecycle wC6_s 2 ⟨[.ret 8 9], true⟩ (by decide) rfl⟩

/-! ### Claim C7 -/

/-- C7: `get_or_generate id` returns `none` exactly when `id` is in the
completed map (and then changes nothing); when `id` has a running generator
it returns that generator's protocol without creating a new one; otherwise
it installs a brand-new `mine = false` generator and returns its protocol. -/
theorem get_or_generate_spec (s : TripleManager) (id : TripleId)
    (p : TripleProtocol) :
    (mapContains s.triples id = true →
      s.get_or_generate id (.ok p) = .ok (none, s)) ∧
    (mapContains s.triples id = false →
      (∀ g, mapLookup s.generators id = some g →
        s.get_or_generate id (.ok p) = .ok (some g.protocol, s)) ∧
      (mapLookup s.generators id = none →
        s.get_or_generate id (.ok p) =
          .ok (some p, { s with generators := mapInsert s.generators id ⟨p, false⟩ }))) ∧
    (∀ r s', s.get_or_generate id (.ok p) = .ok (r, s') →
      (r = none ↔ mapContains s.triples id = true)) := by
  refine ⟨fun hc => ?_, fun hc => ⟨fun g hl => ?_, fun hl => ?_⟩, fun r s' heq => ?_⟩
  · unfold TripleManager.get_or_generate
    rw [if_pos hc]
  · unfold TripleManager.get_or_generate
    rw [if_neg (by simp [hc]), hl]
  · unfold TripleManager.get_or_generate
    rw [if_neg (by simp [hc]), hl]
  · unfold TripleManager.get_or_generate at heq
    by_cases hc : mapContains s.triples id = true
    · rw [if_pos hc] at heq
      injection heq with heq'
      injection heq' with heq'' _
      subst heq''
      simp [hc]
    · rw [if_neg hc] at heq
      cases hl : mapLookup s.generators id with
      | some g =>
        rw [hl] at heq
        injection heq with heq'
        injection heq' with heq'' _
        subst heq''
        simp [hc]
      | none =>
        rw [hl] at heq
        injection heq with heq'
        injection heq' with heq'' _
        subst heq''
        simp [hc]

def wC7_s : TripleManager :=
  { triples := [(1, ⟨1, 10, 20⟩)], generators := [(2, ⟨[.wait], false⟩)], mine := [],
    participants := [0, 1], me := 0, threshold := 2, epoch := 7 }

/-- Witness for `get_or_generate_spec` at a concrete state, exercising the
already-completed branch. -/
theorem get_or_generate_spec_witness :
    ((mapContains wC7_s.triples 1 = true →
       wC7_s.get_or_generate 1 (.ok [.wait]) = .ok (none, wC7_s)) ∧
     (mapContains wC7_s.triples 1 = false →
       (∀ g, mapLookup wC7_s.generators 1 = some g →
         wC7_s.get_or_generate 1 (.ok [.wait]) = .ok (some g.protocol, wC7_s)) ∧
       (mapLookup wC7_s.generators 1 = none →
         wC7_s.get_or_generate 1 (.ok [.wait]) =
           .ok (some [.wait],
             { wC7_s with generators := mapInsert wC7_s.generators 1 ⟨[.wait], false⟩ }))) ∧
     (∀ r s', wC7_s.get_or_generate 1 (.ok [.wait]) = .ok (r, s') →
       (r = none ↔ mapContains wC7_s.triples 1 = true))) ∧
    mapContains wC7_s.triples 1 = true ∧
    wC7_s.get_or_generate 1 (.ok [.wait]) = .ok (none, wC7_s) :=
  ⟨get_or_generate_spec wC7_s 1 [.wait], rfl,
    (get_or_generate_spec wC7_s 1 [.wait]).1 rfl⟩

/-! ### Claim C9 -/

/-- C9: if any generator's protocol errors during `poke`, the call returns
`Err` (so every outbound message collected in that pass is discarded), yet
the state mutations persist: the erring generator is dropped, triples
completed by other generators in the same pass stay inserted, and waiting
generators are still advanced and retained. -/
theorem poke_error_discards_messages_keeps_state (s : TripleManager)
    (id : TripleId) (g : TripleGenerator) (e : ProtocolError)
    (hnd : (mapKeys s.generators).Nodup)
    (hg : mapLookup s.generators id = some g)
    (hres : (runGenerator s.participants s.me s.epoch id g.protocol).1 = .failed e) :
    (∃ e', (s.poke).1 = .error e') ∧
    mapLookup (s.poke).2.generators id = none ∧
    (∀ id' g' sh pb, mapLookup s.generators id' = some g' →
      (runGenerator s.participants s.me s.epoch id' g'.protocol).1 = .completed sh pb →
      mapLookup (s.poke).2.triples id' = some ⟨id', sh, pb⟩) ∧
    (∀ id' g' rem, mapLookup s.generators id' = some g' →
      (runGenerator s.participants s.me s.epoch id' g'.protocol).1 = .retained rem →
      mapLookup (s.poke).2.generators id' = some ⟨rem, g'.mine⟩) := by
  obtain ⟨e', he'⟩ := errFold_some_of_failed _ _ _ hg hres none
  refine ⟨⟨e', poke_fst_of_errFold_some _ _ he'⟩, ?_, ?_, ?_⟩
  · rw [poke_snd]
    refine retainedOf_lookup_none _ _ _ hnd hg ?_
    intro rem hcontra
    rw [hres] at hcontra
    exact GenOutcome.noConfusion hcontra
  · intro id' g' sh pb hg' hres'
    rw [poke_snd]
    exact insertCompleted_lookup_completed _ _ _ _ hnd hg' hres'
  · intro id' g' rem hg' hres'
    rw [poke_snd]
    exact retainedOf_lookup_retained _ _ _ hg' hres'

def wC9_s : TripleManager :=
  { triples := [],
    generators := [(2, ⟨[.err 11], true⟩), (3, ⟨[.ret 8 9], false⟩), (4, ⟨[.wait], true⟩)],
    mine := [], participants := [0, 1], me := 0, threshold := 2, epoch := 7 }

/-- Witness for `poke_error_discards_messages_keeps_state` at a concrete
state: generator 2 fails, generator 3 completes, generator 4 waits. -/
theorem poke_error_discards_messages_keeps_state_witness :
    (mapKeys wC9_s.generators).Nodup ∧
    mapLookup wC9_s.generators 2 = some ⟨[.err 11], true⟩ ∧
    ((∃ e', (wC9_s.poke).1 = .error e') ∧
     mapLookup (wC9_s.poke).2.generators 2 = none ∧
     (∀ id' g' sh pb, mapLookup wC9_s.generators id' = some g' →
       (runGenerator wC9_s.participants wC9_s.me wC9_s.epoch id' g'.protocol).1 =
         .completed sh pb →
       mapLookup (wC9_s.poke).2.triples id' = some ⟨id', sh, pb⟩) ∧
     (∀ id' g' rem, mapLookup wC9_s.generators id' = some g' →
       (runGenerator wC9_s.participants wC9_s.me wC9_s.epoch id' g'.protocol).1 =
         .retained rem →
       mapLookup (wC9_s.poke).2.generators id' = some ⟨rem, g'.mine⟩)) :=
  ⟨by decide, rfl,
    poke_error_discards_messages_keeps_state wC9_s 2 ⟨[.err 11], true⟩ 11
      (by decide) rfl rfl⟩

/-! ### Claim C8 -/

/-- C8: `potential_len()` always equals `len()` plus the number of entries
in the generators map. -/
theorem potential_len_eq (s : TripleManager) :
    s.potential_len = s.len + s.generators.length := rfl

/-! ### Claim C10 -/

/-- C10: after `take id` removed a completed triple, `get_or_generate id`
does not reject the spent id — it installs a fresh `mine = false` generator
for it and returns its protocol. -/
theorem take_then_get_or_generate_resurrects (s : TripleManager) (id : TripleId)
    (t : Triple) (p : TripleProtocol)
    (hnd : (mapKeys s.triples).Nodup)
    (hgen : mapContains s.generators id = false)
    (htake : (s.take id).1 = some t) :
    (s.take id).2.get_or_generate id (.ok p) =
      .ok (some p,
        { (s.take id).2 with
            generators := mapInsert (s.take id).2.generators id ⟨p, false⟩ }) ∧
    mapLookup (mapInsert (s.take id).2.generators id ⟨p, false⟩) id =
      some ⟨p, false⟩ := by
  have hc : mapContains (s.take id).2.triples id = false :=
    mapContains_mapRemove_self id hnd
  have hl : mapLookup (s.take id).2.generators id = none :=
    (mapContains_false_iff _ _).mp hgen
  constructor
  · unfold TripleManager.get_or_generate
    rw [if_neg (by simp [hc]), hl]
  · exact mapLookup_mapInsert_self _ _ _

def wC10_s : TripleManager :=
  { triples := [(3, ⟨3, 30, 40⟩)], generators := [], mine := [],
    participants := [0, 1], me := 0, threshold := 2, epoch := 7 }

/-- Witness for `take_then_get_or_generate_resurrects` at a concrete state. -/
theorem take_then_get_or_generate_resurrects_witness :
    (mapKeys wC10_s.triples).Nodup ∧
    mapContains wC10_s.generators 3 = false ∧
    (wC10_s.take 3).1 = some ⟨3, 30, 40⟩ ∧
    ((wC10_s.take 3).2.get_or_generate 3 (.ok [.wait]) =
      .ok (some [.wait],
        { (wC10_s.take 3).2 with
            generators := mapInsert (wC10_s.take 3).2.generators 3 ⟨[.wait], false⟩ }) ∧
     mapLookup (mapInsert (wC10_s.take 3).2.generators 3 ⟨[.wait], false⟩) 3 =
       some ⟨[.wait], false⟩) :=
  ⟨by decide, rfl, rfl,
    take_then_get_or_generate_resurrects wC10_s 3 ⟨3, 30, 40⟩ [.wait]
      (by decide) rfl rfl⟩

end MPC
